import Mathlib

/-!
Shallow embedding of the French-Health-Chatbot extractive RAG pipeline
(`src/rag_pipeline.py`, `build_vector_store.py`, `app.py`) and proofs about it.

Strings are modelled as `List Char` (Python `str` is a sequence of code
points, and `len` counts code points).  Python primitives used by the code
(`str.strip`, `str.lower`, `in` substring test, `str.split(".")`,
`sep.join`, `str.replace` of a single character, `os.path.basename`) are
embedded below; each embedded pipeline function mirrors the corresponding
Python function line by line.
-/

namespace RagPipeline

/-- Python whitespace predicate: the code points stripped by `str.strip()`
(ASCII whitespace, the C1 separators, NEL, NBSP and the Unicode spaces). -/
def isPySpace (c : Char) : Bool :=
  c.toNat = 0x20 ∨ (0x9 ≤ c.toNat ∧ c.toNat ≤ 0xD) ∨
  (0x1C ≤ c.toNat ∧ c.toNat ≤ 0x1F) ∨ c.toNat = 0x85 ∨ c.toNat = 0xA0 ∨
  c.toNat = 0x1680 ∨ (0x2000 ≤ c.toNat ∧ c.toNat ≤ 0x200A) ∨
  c.toNat = 0x2028 ∨ c.toNat = 0x2029 ∨ c.toNat = 0x202F ∨
  c.toNat = 0x205F ∨ c.toNat = 0x3000

/-- Remove the trailing run of Python whitespace (the right half of
`str.strip()`), keeping the string a left-to-right list. -/
def dropTrailingSpaces : List Char → List Char
  | [] => []
  | c :: rest =>
    match dropTrailingSpaces rest with
    | [] => if isPySpace c then [] else [c]
    | r => c :: r

/-- Python `str.strip()`: drop leading then trailing whitespace. -/
def pyStrip (s : List Char) : List Char :=
  dropTrailingSpaces (s.dropWhile isPySpace)

/-- Python `str.lower()` restricted to the Latin-1 range actually occurring
in this repository: ASCII `A`–`Z` and the Latin-1 uppercase letters
`À`–`Þ` (except `×`) map down by 0x20; every other code point is fixed. -/
def pyLowerChar (c : Char) : Char :=
  if 'A' ≤ c ∧ c ≤ 'Z' then Char.ofNat (c.toNat + 0x20)
  else if 0xC0 ≤ c.toNat ∧ c.toNat ≤ 0xDE ∧ c.toNat ≠ 0xD7 then
    Char.ofNat (c.toNat + 0x20)
  else c

/-- Python `str.lower()` on a whole string. -/
def pyLower (s : List Char) : List Char := s.map pyLowerChar

/-- Python `str.startswith`. -/
def pyStartsWith : List Char → List Char → Bool
  | _, [] => true
  | [], _ :: _ => false
  | h :: hs, n :: ns => h = n && pyStartsWith hs ns

/-- Python substring test `needle in hay`. -/
def containsSub : List Char → List Char → Bool
  | hay, needle =>
    pyStartsWith hay needle ||
      match hay with
      | [] => false
      | _ :: t => containsSub t needle

/-- Python single-character `str.replace(a, b)` (for one-character `a` and
`b` this is a character map). -/
def replaceChar (a b : Char) (s : List Char) : List Char :=
  s.map fun c => if c = a then b else c

/-- Does the string contain two adjacent ASCII spaces (`"  " in text`)? -/
def hasDoubleSpace : List Char → Bool
  | [] => false
  | [_] => false
  | a :: b :: rest => (a = ' ' && b = ' ') || hasDoubleSpace (b :: rest)

/-- One pass of Python `text.replace("  ", " ")`: replace the
left-to-right non-overlapping occurrences of two spaces by one. -/
def collapseOnce : List Char → List Char
  | [] => []
  | [c] => [c]
  | a :: b :: rest =>
    if a = ' ' && b = ' ' then ' ' :: collapseOnce rest
    else a :: collapseOnce (b :: rest)

theorem collapseOnce_length_le : ∀ s : List Char, (collapseOnce s).length ≤ s.length := by
  intro s
  induction s using collapseOnce.induct with
  | case1 => simp [collapseOnce]
  | case2 c => simp [collapseOnce]
  | case3 a b rest h ih =>
    simp only [collapseOnce, h, if_true, List.length_cons]
    omega
  | case4 a b rest h ih =>
    simp only [collapseOnce, h, Bool.false_eq_true, if_false, List.length_cons] at ih ⊢
    omega

theorem collapseOnce_length_lt :
    ∀ s : List Char, hasDoubleSpace s = true → (collapseOnce s).length < s.length := by
  intro s
  induction s using collapseOnce.induct with
  | case1 => intro hd; simp [hasDoubleSpace] at hd
  | case2 c => intro hd; simp [hasDoubleSpace] at hd
  | case3 a b rest h ih =>
    intro _
    have hle := collapseOnce_length_le rest
    simp only [collapseOnce, h, if_true, List.length_cons]
    omega
  | case4 a b rest h ih =>
    intro hd
    have hrest : hasDoubleSpace (b :: rest) = true := by
      simp only [hasDoubleSpace, h, Bool.false_or] at hd
      exact hd
    have := ih hrest
    simp only [collapseOnce, h, Bool.false_eq_true, if_false, List.length_cons] at this ⊢
    omega

/-- The body of the `while "  " in text: text = text.replace("  ", " ")`
loop of `_clean_text`, with an explicit iteration bound (each iteration
strictly shrinks the string, so `s.length` iterations always suffice;
`collapseSpacesAux_congr` and `collapseSpaces_loop` below show the bound is
irrelevant and recover the exact `while` recurrence). -/
def collapseSpacesAux : Nat → List Char → List Char
  | 0, s => s
  | fuel + 1, s => if hasDoubleSpace s then collapseSpacesAux fuel (collapseOnce s) else s

/-- The `while "  " in text: text = text.replace("  ", " ")` loop of
`_clean_text`. -/
def collapseSpaces (s : List Char) : List Char :=
  collapseSpacesAux s.length s

theorem collapseSpacesAux_congr :
    ∀ (f₁ : Nat) (s : List Char) (f₂ : Nat), s.length ≤ f₁ → s.length ≤ f₂ →
      collapseSpacesAux f₁ s = collapseSpacesAux f₂ s := by
  intro f₁
  induction f₁ with
  | zero =>
    intro s f₂ h₁ _
    have hs : s = [] := List.length_eq_zero.mp (Nat.le_zero.mp h₁)
    subst hs
    cases f₂ with
    | zero => rfl
    | succ f₂ => simp [collapseSpacesAux, hasDoubleSpace]
  | succ f₁ ih =>
    intro s f₂ h₁ h₂
    by_cases hd : hasDoubleSpace s = true
    · have hlt := collapseOnce_length_lt s hd
      cases f₂ with
      | zero =>
        have hs : s = [] := List.length_eq_zero.mp (Nat.le_zero.mp h₂)
        subst hs
        simp [hasDoubleSpace] at hd
      | succ f₂ =>
        simp only [collapseSpacesAux, hd, if_true]
        exact ih (collapseOnce s) f₂ (by omega) (by omega)
    · have hd' : hasDoubleSpace s = false := by
        cases h : hasDoubleSpace s
        · rfl
        · exact absurd h hd
      cases f₂ with
      | zero =>
        have hs : s = [] := List.length_eq_zero.mp (Nat.le_zero.mp h₂)
        subst hs
        simp [collapseSpacesAux, hasDoubleSpace]
      | succ f₂ => simp [collapseSpacesAux, hd']

/-- `collapseSpaces` satisfies exactly the recurrence of the Python
`while` loop. -/
theorem collapseSpaces_loop (s : List Char) :
    collapseSpaces s =
      if hasDoubleSpace s then collapseSpaces (collapseOnce s) else s := by
  by_cases hd : hasDoubleSpace s = true
  · have hlt := collapseOnce_length_lt s hd
    have hpos : 1 ≤ s.length := by omega
    obtain ⟨n, hn⟩ : ∃ n, s.length = n + 1 := ⟨s.length - 1, by omega⟩
    simp only [hd, if_true, collapseSpaces, hn, collapseSpacesAux]
    exact collapseSpacesAux_congr n (collapseOnce s) (collapseOnce s).length
      (by omega) (le_refl _)
  · have hd' : hasDoubleSpace s = false := by
      cases h : hasDoubleSpace s
      · rfl
      · exact absurd h hd
    simp only [hd', if_false, Bool.false_eq_true, collapseSpaces]
    cases hn : s.length with
    | zero => rfl
    | succ n => simp [collapseSpacesAux, hd']

/-- The 13 private-use "weird" characters of `WEIRD_CHARS` in
`rag_pipeline.py` (U+E924, U+E928, U+E91F, U+E91E, U+E931, U+E910, U+E918,
U+E92E, U+E927, U+E92B, U+E902, U+E906, U+E92C). -/
def WEIRD_CHARS : List Char :=
  [Char.ofNat 0xE924, Char.ofNat 0xE928, Char.ofNat 0xE91F, Char.ofNat 0xE91E,
   Char.ofNat 0xE931, Char.ofNat 0xE910, Char.ofNat 0xE918, Char.ofNat 0xE92E,
   Char.ofNat 0xE927, Char.ofNat 0xE92B, Char.ofNat 0xE902, Char.ofNat 0xE906,
   Char.ofNat 0xE92C]

/-- `_clean_text`: newlines to spaces, each weird character replaced by a
space, runs of spaces collapsed in a loop, then `strip()`. -/
def cleanText (text : List Char) : List Char :=
  if text = [] then []
  else
    let t1 := replaceChar '\r' ' ' text
    let t2 := replaceChar '\n' ' ' t1
    let t3 := WEIRD_CHARS.foldl (fun acc ch => replaceChar ch ' ' acc) t2
    pyStrip (collapseSpaces t3)

/-- Python `text.split(".")`: the fragments between the dots, empties kept. -/
def splitOnDot : List Char → List (List Char)
  | [] => [[]]
  | c :: rest =>
    if c = '.' then [] :: splitOnDot rest
    else
      match splitOnDot rest with
      | [] => [[c]]
      | p :: ps => (c :: p) :: ps

/-- `_split_sentences`: clean, split on `"."`, strip each part, keep the
non-empty parts. -/
def splitSentences (text : List Char) : List (List Char) :=
  (splitOnDot (cleanText text)).filterMap fun p =>
    let s := pyStrip p
    if 0 < s.length then some s else none

/-- `UNWANTED_PATTERNS` from `rag_pipeline.py`. -/
def UNWANTED_PATTERNS : List (List Char) :=
  ["Lire aussi".data,
   "Cet article vous a-t-il été utile".data,
   "Assuré Entreprise Professionnel de santé".data,
   "Sources".data,
   "Sites utiles".data,
   "Oui Non".data,
   "Copier le lien".data]

/-- `BIBLIO_PATTERNS` from `rag_pipeline.py`. -/
def BIBLIO_PATTERNS : List (List Char) :=
  ["santé publique france".data,
   "consulté le".data,
   "site internet".data,
   "saint-maurice".data,
   "document de référence".data,
   "pdf ,".data]

/-- `MONTHS` from `rag_pipeline.py`. -/
def MONTHS : List (List Char) :=
  ["janvier".data, "février".data, "fevrier".data, "mars".data, "avril".data,
   "mai".data, "juin".data, "juillet".data, "août".data, "aout".data,
   "septembre".data, "octobre".data, "novembre".data, "décembre".data,
   "decembre".data]

/-- `_filter_sentences`: drop short sentences, UI boilerplate,
bibliographic lines, and sentences starting with a month name. -/
def filterSentences : List (List Char) → List (List Char)
  | [] => []
  | s :: rest =>
    let sClean := pyStrip s
    let sLower := pyLower sClean
    if sClean.length < 30 then filterSentences rest
    else if UNWANTED_PATTERNS.any (fun p => containsSub sLower (pyLower p)) then
      filterSentences rest
    else if BIBLIO_PATTERNS.any (fun p => containsSub sLower p) then
      filterSentences rest
    else if MONTHS.any (fun m => pyStartsWith sLower m) then
      filterSentences rest
    else sClean :: filterSentences rest

/-- Python `". ".join(kept)`. -/
def joinDotSpace : List (List Char) → List Char
  | [] => []
  | [s] => s
  | s :: rest => s ++ '.' :: ' ' :: joinDotSpace rest

/-- Python `summary.endswith(".")`. -/
def endsWithDot (s : List Char) : Bool :=
  match s.getLast? with
  | some '.' => true
  | _ => false

/-- `_summarize_snippet`: split into sentences, filter, keep the first
`maxSentences`, join with `". "`, strip, add a final period if missing.
Returns `[]` when no sentence survives. -/
def summarizeSnippet (text : List Char) (maxSentences : Nat) : List Char :=
  let sentences := filterSentences (splitSentences text)
  if sentences = [] then []
  else
    let kept := sentences.take maxSentences
    let summary := pyStrip (joinDotSpace kept)
    if endsWithDot summary then summary else summary ++ ['.']

/-- Python `" ".join(merged)`. -/
def joinSpace : List (List Char) → List Char
  | [] => []
  | [s] => s
  | s :: rest => s ++ ' ' :: joinSpace rest

/-- The selection loop of `_merge_snippets`: strip each snippet, skip the
empty ones, and `break` as soon as `current_len + len(s) + 1 > max_chars`;
`cur` is the running `current_len`. -/
def mergeLoop (maxChars : Nat) : List (List Char) → Nat → List (List Char)
  | [], _ => []
  | s :: rest, cur =>
    let s' := pyStrip s
    if s' = [] then mergeLoop maxChars rest cur
    else if maxChars < cur + s'.length + 1 then []
    else s' :: mergeLoop maxChars rest (cur + s'.length + 1)

/-- `_merge_snippets`: greedy selection, then `" ".join(...).strip()`. -/
def mergeSnippets (snippets : List (List Char)) (maxChars : Nat) : List Char :=
  pyStrip (joinSpace (mergeLoop maxChars snippets 0))

/-- `_get_topic_keywords`: the ordered if-chain over the lower-cased
query (`q = query.lower()`, written inline below); the first trigger whose
substring occurs wins. -/
def getTopicKeywords (query : List Char) : List (List Char) :=
  if containsSub (pyLower query) "otite".data then ["otite".data]
  else if containsSub (pyLower query) "rhinopharyng".data then ["rhinopharyngite".data]
  else if containsSub (pyLower query) "angine".data then ["angine".data]
  else if containsSub (pyLower query) "fièvre".data || containsSub (pyLower query) "fievre".data then ["fievre".data]
  else if containsSub (pyLower query) "gastro".data then ["gastro".data]
  else if containsSub (pyLower query) "bronchiolite".data then ["bronchiolite".data]
  else if containsSub (pyLower query) "hypertension".data || containsSub (pyLower query) "tension".data then ["hypertension".data]
  else if containsSub (pyLower query) "diabète".data || containsSub (pyLower query) "diabete".data then ["diabete".data]
  else if containsSub (pyLower query) "migraine".data then ["migraine".data]
  else if containsSub (pyLower query) "grippe".data then ["grippe".data]
  else if containsSub (pyLower query) "covid".data then ["covid".data]
  else if containsSub (pyLower query) "asthme".data then ["asthme".data]
  else if containsSub (pyLower query) "allerg".data then ["allergie".data, "allergies".data]
  else if containsSub (pyLower query) "cholestérol".data || containsSub (pyLower query) "cholesterol".data then ["cholesterol".data]
  else []

/-- A retrieval result as produced by `retrieve_top_k` and consumed by the
pipeline: `{filename, score, chunk_index, text}`. -/
structure QueryResult where
  filename : List Char
  score : ℚ
  chunkIndex : Int
  text : List Char
deriving DecidableEq

/-- `_filter_results_by_topic`: when a topic is detected, keep the results
whose lower-cased filename contains one of its keywords; if that keeps
nothing, return the original results. -/
def filterResultsByTopic (results : List QueryResult) (query : List Char) :
    List QueryResult :=
  let topicKeywords := getTopicKeywords query
  if topicKeywords = [] then results
  else
    let filtered := results.filter fun r =>
      topicKeywords.any fun kw => containsSub (pyLower r.filename) kw
    if filtered = [] then results else filtered

/-- `os.path.basename` for POSIX paths: everything after the last `/`. -/
def basename (s : List Char) : List Char :=
  s.foldl (fun acc c => if c = '/' then [] else acc ++ [c]) []

/-- A display source of the answer: `{filename, score, chunk_index, snippet}`. -/
structure Source where
  filename : List Char
  score : ℚ
  chunkIndex : Int
  snippet : List Char
deriving DecidableEq

/-- The value returned by `answer_question_extractive`. -/
structure AnswerResult where
  question : List Char
  answer : List Char
  sources : List Source
deriving DecidableEq

/-- The canned answer used when retrieval returns nothing. -/
def noResultsMessage : List Char :=
  ("Je n’ai trouvé aucune information pertinente sur ce sujet dans les documents chargés. " ++
   "Merci de vérifier que les brochures PDF contiennent bien des informations sur cette question.").data

/-- The canned body used when the merged snippets are empty. -/
def emptyCombinedMessage : List Char :=
  ("Les documents contiennent des informations, mais elles n’ont pas pu être " ++
   "reformulées correctement. Merci de reformuler votre question ou de consulter " ++
   "un professionnel de santé.").data

/-- The per-result work of step 3 of `answer_question_extractive`: truncate
the chunk text, summarize it, and fall back to `_clean_text` when the
summary is empty. -/
def snippetOfResult (maxChunkChars : Nat) (r : QueryResult) : List Char :=
  let rawText := r.text.take maxChunkChars
  let summarized := summarizeSnippet rawText 3
  if summarized = [] then cleanText rawText else summarized

/-- `answer_question_extractive` after its call to `retrieve_top_k` (that
function lives in `src/retriever.py`, outside the embedded sources), taking
the retrieval results as input: topic filtering, per-result summarization
with the clean-text fallback, snippet merging under 900 characters, and
final message assembly. -/
def answerQuestionExtractive (query : List Char) (results : List QueryResult)
    (maxChunkChars : Nat) : AnswerResult :=
  if results = [] then
    { question := query, answer := noResultsMessage, sources := [] }
  else
    let filtered := filterResultsByTopic results query
    let sourcesList := filtered.map fun r =>
      { filename := basename r.filename, score := r.score,
        chunkIndex := r.chunkIndex,
        snippet := snippetOfResult maxChunkChars r : Source }
    let snippetsForAnswer := filtered.filterMap fun r =>
      let s := snippetOfResult maxChunkChars r
      if s = [] then none else some s
    let combined := mergeSnippets snippetsForAnswer 900
    let combinedText := if combined = [] then emptyCombinedMessage else combined
    { question := query,
      answer :=
        ("Voici une réponse basée sur les brochures disponibles concernant votre question :\n\n").data ++
        combinedText ++
        ("\n\nCe résumé est directement élaboré à partir des brochures. " ++
         "Il fournit une information générale et ne remplace **en aucun cas** l’avis d’un professionnel de santé.").data,
      sources := sourcesList }

end RagPipeline

namespace VectorStore

/-- A metadata record of the persisted index: `{filename, chunk_index, text}`. -/
structure MetaRecord where
  filename : List Char
  chunkIndex : Int
  text : List Char
deriving DecidableEq

/-- `load_vector_store` from `app.py`: fails when either file is missing or
its load raises, and otherwise installs the pair in the session state.
`embFile`/`metaFile` are `none` when the file is missing, unreadable or
malformed, and `some` the parsed content otherwise.  The function performs
exactly the checks of the source: existence and loadability — there is no
comparison of the number of vector rows with the number of metadata
records. -/
def load_vector_store (embFile : Option (List (List ℚ)))
    (metaFile : Option (List MetaRecord)) :
    Option (List (List ℚ) × List MetaRecord) :=
  match embFile, metaFile with
  | some embeddings, some metadata => some (embeddings, metadata)
  | _, _ => none

/-- Step 5 of `build_vector_store.main`: rewrite each record's non-empty
filename to its basename before persisting. -/
def cleanFilenames (metadata : List MetaRecord) : List MetaRecord :=
  metadata.map fun m =>
    if m.filename ≠ [] then { m with filename := RagPipeline.basename m.filename }
    else m

end VectorStore

namespace RagPipeline

/-! Properties of `pyStrip`. -/

/-- The string is empty or starts with a non-whitespace character. -/
def noLeadSpace : List Char → Bool
  | [] => true
  | c :: _ => !isPySpace c

/-- The string is empty or ends with a non-whitespace character. -/
def noTrailSpace (s : List Char) : Bool :=
  match s.getLast? with
  | none => true
  | some c => !isPySpace c

theorem dropTrailingSpaces_append :
    ∀ s : List Char, ∃ t, dropTrailingSpaces s ++ t = s := by
  intro s
  induction s with
  | nil => exact ⟨[], rfl⟩
  | cons c rest ih =>
    cases hr : dropTrailingSpaces rest with
    | nil =>
      by_cases hc : isPySpace c = true
      · refine ⟨c :: rest, ?_⟩
        simp [dropTrailingSpaces, hr, hc]
      · refine ⟨rest, ?_⟩
        simp [dropTrailingSpaces, hr, hc]
    | cons d ds =>
      obtain ⟨t, ht⟩ := ih
      rw [hr] at ht
      refine ⟨t, ?_⟩
      simp only [dropTrailingSpaces, hr, List.cons_append, List.cons.injEq, true_and]
      exact ht

theorem dropTrailingSpaces_cons (c : Char) (rest : List Char) :
    dropTrailingSpaces (c :: rest) =
      match dropTrailingSpaces rest with
      | [] => if isPySpace c = true then [] else [c]
      | r => c :: r := rfl

theorem dropTrailingSpaces_sublist (s : List Char) :
    List.Sublist (dropTrailingSpaces s) s := by
  obtain ⟨t, ht⟩ := dropTrailingSpaces_append s
  conv_rhs => rw [← ht]
  exact List.sublist_append_left _ t

theorem noTrailSpace_dropTrailingSpaces :
    ∀ s : List Char, noTrailSpace (dropTrailingSpaces s) = true := by
  intro s
  induction s with
  | nil => rfl
  | cons c rest ih =>
    cases hr : dropTrailingSpaces rest with
    | nil =>
      by_cases hc : isPySpace c = true
      · simp [dropTrailingSpaces, hr, hc, noTrailSpace]
      · simp only [dropTrailingSpaces, hr]
        simp only [Bool.not_eq_true] at hc
        simp [hc, noTrailSpace]
    | cons d ds =>
      rw [hr] at ih
      simp only [dropTrailingSpaces, hr]
      simpa [noTrailSpace, List.getLast?_cons_cons] using ih

theorem dropTrailingSpaces_of_noTrail :
    ∀ s : List Char, noTrailSpace s = true → dropTrailingSpaces s = s := by
  intro s
  induction s with
  | nil => intro _; rfl
  | cons c rest ih =>
    intro h
    cases rest with
    | nil =>
      simp only [noTrailSpace, List.getLast?_singleton, Bool.not_eq_true'] at h
      simp [dropTrailingSpaces, h]
    | cons d t =>
      have h' : noTrailSpace (d :: t) = true := by
        simpa [noTrailSpace, List.getLast?_cons_cons] using h
      have heq := ih h'
      rw [dropTrailingSpaces_cons, heq]

theorem noLeadSpace_dropWhile :
    ∀ s : List Char, noLeadSpace (s.dropWhile isPySpace) = true := by
  intro s
  induction s with
  | nil => rfl
  | cons c rest ih =>
    by_cases hc : isPySpace c = true
    · simpa [List.dropWhile_cons, hc] using ih
    · simp only [Bool.not_eq_true] at hc
      simp [List.dropWhile_cons, hc, noLeadSpace]

theorem dropWhile_of_noLead :
    ∀ s : List Char, noLeadSpace s = true → s.dropWhile isPySpace = s := by
  intro s h
  cases s with
  | nil => rfl
  | cons c rest =>
    simp only [noLeadSpace, Bool.not_eq_true'] at h
    simp [List.dropWhile_cons, h]

theorem noLeadSpace_dropTrailingSpaces :
    ∀ s : List Char, noLeadSpace s = true → noLeadSpace (dropTrailingSpaces s) = true := by
  intro s h
  cases s with
  | nil => rfl
  | cons c rest =>
    cases hr : dropTrailingSpaces rest with
    | nil =>
      by_cases hc : isPySpace c = true
      · exfalso
        simp [noLeadSpace, hc] at h
      · simp only [Bool.not_eq_true] at hc
        simpa [dropTrailingSpaces, hr, hc, noLeadSpace] using h
    | cons d ds =>
      simp only [dropTrailingSpaces, hr]
      simpa [noLeadSpace] using h

theorem noLeadSpace_pyStrip (s : List Char) : noLeadSpace (pyStrip s) = true :=
  noLeadSpace_dropTrailingSpaces _ (noLeadSpace_dropWhile s)

theorem noTrailSpace_pyStrip (s : List Char) : noTrailSpace (pyStrip s) = true :=
  noTrailSpace_dropTrailingSpaces _

theorem pyStrip_of_clean (s : List Char) (h₁ : noLeadSpace s = true)
    (h₂ : noTrailSpace s = true) : pyStrip s = s := by
  unfold pyStrip
  rw [dropWhile_of_noLead s h₁, dropTrailingSpaces_of_noTrail s h₂]

theorem pyStrip_idem (s : List Char) : pyStrip (pyStrip s) = pyStrip s :=
  pyStrip_of_clean _ (noLeadSpace_pyStrip s) (noTrailSpace_pyStrip s)

theorem pyStrip_sublist (s : List Char) : List.Sublist (pyStrip s) s :=
  (dropTrailingSpaces_sublist _).trans (List.dropWhile_sublist isPySpace)

theorem pyStrip_length_le (s : List Char) : (pyStrip s).length ≤ s.length :=
  (pyStrip_sublist s).length_le

/-! Preservation of the absence of double spaces. -/

theorem hasDoubleSpace_tail (c : Char) (rest : List Char)
    (h : hasDoubleSpace (c :: rest) = false) : hasDoubleSpace rest = false := by
  cases rest with
  | nil => rfl
  | cons d t =>
    simp only [hasDoubleSpace, Bool.or_eq_false_iff] at h
    exact h.2

theorem hasDoubleSpace_dropWhile (p : Char → Bool) :
    ∀ s : List Char, hasDoubleSpace s = false →
      hasDoubleSpace (s.dropWhile p) = false := by
  intro s
  induction s with
  | nil => intro _; rfl
  | cons c rest ih =>
    intro h
    by_cases hc : p c = true
    · simpa [List.dropWhile_cons, hc] using ih (hasDoubleSpace_tail c rest h)
    · simp only [Bool.not_eq_true] at hc
      simpa [List.dropWhile_cons, hc] using h

theorem hasDoubleSpace_append_left :
    ∀ p t : List Char, hasDoubleSpace (p ++ t) = false → hasDoubleSpace p = false := by
  intro p
  induction p using hasDoubleSpace.induct with
  | case1 => intro t _; rfl
  | case2 c => intro t _; rfl
  | case3 a b rest ih =>
    intro t h
    simp only [List.cons_append, hasDoubleSpace, Bool.or_eq_false_iff] at h ⊢
    exact ⟨h.1, ih t (by simpa using h.2)⟩

theorem hasDoubleSpace_pyStrip (s : List Char)
    (h : hasDoubleSpace s = false) : hasDoubleSpace (pyStrip s) = false := by
  obtain ⟨t, ht⟩ := dropTrailingSpaces_append (s.dropWhile isPySpace)
  have h' : hasDoubleSpace (s.dropWhile isPySpace) = false :=
    hasDoubleSpace_dropWhile isPySpace s h
  rw [← ht] at h'
  exact hasDoubleSpace_append_left _ t h'

/-! Properties of the space-collapsing loop. -/

theorem hasDoubleSpace_collapseSpacesAux :
    ∀ (fuel : Nat) (s : List Char), s.length ≤ fuel →
      hasDoubleSpace (collapseSpacesAux fuel s) = false := by
  intro fuel
  induction fuel with
  | zero =>
    intro s h
    have hs : s = [] := List.length_eq_zero.mp (Nat.le_zero.mp h)
    subst hs
    rfl
  | succ fuel ih =>
    intro s h
    by_cases hd : hasDoubleSpace s = true
    · have hlt := collapseOnce_length_lt s hd
      simp only [collapseSpacesAux, hd, if_true]
      exact ih (collapseOnce s) (by omega)
    · have hd' : hasDoubleSpace s = false := by
        cases hb : hasDoubleSpace s
        · rfl
        · exact absurd hb hd
      simp [collapseSpacesAux, hd']

theorem hasDoubleSpace_collapseSpaces (s : List Char) :
    hasDoubleSpace (collapseSpaces s) = false :=
  hasDoubleSpace_collapseSpacesAux s.length s (le_refl _)

theorem collapseSpaces_of_no_double (s : List Char)
    (h : hasDoubleSpace s = false) : collapseSpaces s = s := by
  rw [collapseSpaces_loop, h]
  simp

theorem collapseOnce_subset : ∀ s : List Char, collapseOnce s ⊆ s := by
  intro s
  induction s using collapseOnce.induct with
  | case1 => simp [collapseOnce]
  | case2 c => simp [collapseOnce]
  | case3 a b rest h ih =>
    simp only [collapseOnce, h, if_true]
    intro x hx
    rcases List.mem_cons.mp hx with hx | hx
    · subst hx
      have ha : a = ' ' := by
        have := (Bool.and_eq_true _ _).mp h
        exact decide_eq_true_eq.mp this.1
      subst ha
      exact List.mem_cons_self _ _
    · exact List.mem_cons_of_mem _ (List.mem_cons_of_mem _ (ih hx))
  | case4 a b rest h ih =>
    simp only [collapseOnce, h, Bool.false_eq_true, if_false]
    intro x hx
    rcases List.mem_cons.mp hx with hx | hx
    · subst hx
      exact List.mem_cons_self _ _
    · exact List.mem_cons_of_mem _ (ih hx)

theorem collapseSpacesAux_subset :
    ∀ (fuel : Nat) (s : List Char), collapseSpacesAux fuel s ⊆ s := by
  intro fuel
  induction fuel with
  | zero => intro s; simp [collapseSpacesAux]
  | succ fuel ih =>
    intro s
    by_cases hd : hasDoubleSpace s = true
    · simp only [collapseSpacesAux, hd, if_true]
      exact (ih (collapseOnce s)).trans (collapseOnce_subset s)
    · have hd' : hasDoubleSpace s = false := by
        cases hb : hasDoubleSpace s
        · rfl
        · exact absurd hb hd
      simp [collapseSpacesAux, hd']

theorem collapseSpaces_subset (s : List Char) : collapseSpaces s ⊆ s :=
  collapseSpacesAux_subset s.length s

/-! The single-pass character classification equivalent to `_clean_text`'s
replacement cascade. -/

/-- One character of the cleaning pass: carriage returns, newlines and the
denylisted characters become a space, everything else is untouched. -/
def cleanChar (c : Char) : Char :=
  if c = '\r' ∨ c = '\n' ∨ c ∈ WEIRD_CHARS then ' ' else c

theorem cleanChar_idem (c : Char) : cleanChar (cleanChar c) = cleanChar c := by
  by_cases h : c = '\r' ∨ c = '\n' ∨ c ∈ WEIRD_CHARS
  · simp only [cleanChar, h, if_true]
    decide
  · simp [cleanChar, h]

theorem replace_cascade_eq_map (s : List Char) :
    WEIRD_CHARS.foldl (fun acc ch => replaceChar ch ' ' acc)
      (replaceChar '\n' ' ' (replaceChar '\r' ' ' s)) = s.map cleanChar := by
  simp only [WEIRD_CHARS, List.foldl_cons, List.foldl_nil, replaceChar, List.map_map]
  refine List.map_congr_left ?_
  intro a _
  by_cases h : a = '\r' ∨ a = '\n' ∨ a ∈ WEIRD_CHARS
  · rcases h with h | h | h
    · subst h; decide
    · subst h; decide
    · simp only [WEIRD_CHARS, List.mem_cons, List.not_mem_nil, or_false] at h
      rcases h with h | h | h | h | h | h | h | h | h | h | h | h | h <;>
        (subst h; decide)
  · push_neg at h
    obtain ⟨h1, h2, h3⟩ := h
    simp only [WEIRD_CHARS, List.mem_cons, List.not_mem_nil, or_false, not_or] at h3
    obtain ⟨k1, k2, k3, k4, k5, k6, k7, k8, k9, k10, k11, k12, k13⟩ := h3
    simp [cleanChar, Function.comp, h1, h2, k1, k2, k3, k4, k5, k6, k7, k8,
      k9, k10, k11, k12, k13, WEIRD_CHARS]

/-- `_clean_text` is the single classifying pass followed by the space
collapse and the final strip. -/
theorem cleanText_eq_classify (s : List Char) :
    cleanText s = pyStrip (collapseSpaces (s.map cleanChar)) := by
  by_cases hs : s = []
  · subst hs
    rfl
  · simp only [cleanText, hs, if_false]
    rw [replace_cascade_eq_map s]

/-- C5 (counterexample): a denylisted character between two letters does
not leave the letters adjacent — `_clean_text` replaces it by a space, so
`"a<U+E924>b"` cleans to `"a b"`, not to `"ab"`. -/
theorem cleanText_weird_char_leaves_space :
    cleanText ('a' :: Char.ofNat 0xE924 :: ['b']) = "a b".data ∧
    cleanText ('a' :: Char.ofNat 0xE924 :: ['b']) ≠ "ab".data := by
  exact ⟨by decide, by decide⟩

/-- C5 (amended): `_clean_text` converts carriage returns and newlines to
single spaces and replaces (rather than removes) every denylisted
character by a single space — equivalently it maps every character through
`cleanChar` in one pass — then collapses every run of two or more spaces
to one and trims leading and trailing whitespace; consequently its output
has no double space and is strip-fixed. -/
theorem cleanText_spec_amended (s : List Char) :
    cleanText s = pyStrip (collapseSpaces (s.map cleanChar)) ∧
    hasDoubleSpace (cleanText s) = false ∧
    pyStrip (cleanText s) = cleanText s := by
  have hy := cleanText_eq_classify s
  have hds : hasDoubleSpace (cleanText s) = false := by
    rw [hy]
    exact hasDoubleSpace_pyStrip _ (hasDoubleSpace_collapseSpaces _)
  refine ⟨hy, hds, ?_⟩
  rw [hy]
  exact pyStrip_idem _

/-! Properties of `_merge_snippets`. -/

theorem joinSpace_cons (x : List Char) (L : List (List Char)) :
    joinSpace (x :: L) = if L = [] then x else x ++ ' ' :: joinSpace L := by
  cases L with
  | nil => rfl
  | cons y t => rfl

theorem joinSpace_cons_append (a b : List Char) (L : List (List Char)) :
    joinSpace ((a ++ ' ' :: b) :: L) = joinSpace (a :: b :: L) := by
  cases L with
  | nil => rfl
  | cons c t =>
    simp [joinSpace, List.append_assoc]

theorem mergeLoop_cons (maxChars : Nat) (s : List Char) (rest : List (List Char))
    (cur : Nat) :
    mergeLoop maxChars (s :: rest) cur =
      if pyStrip s = [] then mergeLoop maxChars rest cur
      else if maxChars < cur + (pyStrip s).length + 1 then []
      else pyStrip s :: mergeLoop maxChars rest (cur + (pyStrip s).length + 1) := rfl

theorem mergeLoop_sublist (maxChars : Nat) :
    ∀ (snips : List (List Char)) (cur : Nat),
      List.Sublist (mergeLoop maxChars snips cur) (snips.map pyStrip) := by
  intro snips
  induction snips with
  | nil => intro cur; simp [mergeLoop]
  | cons s rest ih =>
    intro cur
    rw [mergeLoop_cons, List.map_cons]
    by_cases hs : pyStrip s = []
    · rw [if_pos hs]
      exact (ih cur).cons _
    · rw [if_neg hs]
      by_cases hcond : maxChars < cur + (pyStrip s).length + 1
      · rw [if_pos hcond]
        exact List.nil_sublist _
      · rw [if_neg hcond]
        exact (ih _).cons₂ _

theorem mergeLoop_mem (maxChars : Nat) :
    ∀ (snips : List (List Char)) (cur : Nat) (x : List Char),
      x ∈ mergeLoop maxChars snips cur → (∃ s0 ∈ snips, x = pyStrip s0) ∧ x ≠ [] := by
  intro snips
  induction snips with
  | nil => intro cur x hx; simp [mergeLoop] at hx
  | cons s rest ih =>
    intro cur x hx
    rw [mergeLoop_cons] at hx
    by_cases hs : pyStrip s = []
    · rw [if_pos hs] at hx
      obtain ⟨⟨s0, hs0, hx0⟩, hne⟩ := ih cur x hx
      exact ⟨⟨s0, List.mem_cons_of_mem _ hs0, hx0⟩, hne⟩
    · rw [if_neg hs] at hx
      by_cases hcond : maxChars < cur + (pyStrip s).length + 1
      · rw [if_pos hcond] at hx
        simp at hx
      · rw [if_neg hcond] at hx
        rcases List.mem_cons.mp hx with hx | hx
        · exact ⟨⟨s, List.mem_cons_self _ _, hx⟩, hx ▸ hs⟩
        · obtain ⟨⟨s0, hs0, hx0⟩, hne⟩ := ih _ x hx
          exact ⟨⟨s0, List.mem_cons_of_mem _ hs0, hx0⟩, hne⟩

theorem mergeLoop_join_length (maxChars : Nat) :
    ∀ (snips : List (List Char)) (cur : Nat),
      mergeLoop maxChars snips cur ≠ [] →
      cur + (joinSpace (mergeLoop maxChars snips cur)).length + 1 ≤ maxChars := by
  intro snips
  induction snips with
  | nil => intro cur h; simp [mergeLoop] at h
  | cons s rest ih =>
    intro cur h
    rw [mergeLoop_cons] at h ⊢
    by_cases hs : pyStrip s = []
    · rw [if_pos hs] at h ⊢
      exact ih cur h
    · rw [if_neg hs] at h ⊢
      by_cases hcond : maxChars < cur + (pyStrip s).length + 1
      · rw [if_pos hcond] at h
        exact absurd rfl h
      · rw [if_neg hcond] at h ⊢
        rw [joinSpace_cons]
        by_cases hL : mergeLoop maxChars rest (cur + (pyStrip s).length + 1) = []
        · rw [if_pos hL]
          omega
        · have := ih (cur + (pyStrip s).length + 1) hL
          rw [if_neg hL]
          simp only [List.length_append, List.length_cons]
          omega

/-- The elements selected by `mergeLoop` are stripped and non-empty, so the
final `strip()` of `_merge_snippets` does nothing. -/
theorem pyStrip_joinSpace_mergeLoop (maxChars : Nat) (snips : List (List Char))
    (cur : Nat) :
    pyStrip (joinSpace (mergeLoop maxChars snips cur)) =
      joinSpace (mergeLoop maxChars snips cur) := by
  have hclean : ∀ L : List (List Char),
      (∀ x ∈ L, noLeadSpace x = true ∧ noTrailSpace x = true ∧ x ≠ []) →
      noLeadSpace (joinSpace L) = true ∧ noTrailSpace (joinSpace L) = true := by
    intro L
    induction L with
    | nil => intro _; exact ⟨rfl, rfl⟩
    | cons x t iht =>
      intro hall
      obtain ⟨hx1, hx2, hx3⟩ := hall x (List.mem_cons_self _ _)
      cases t with
      | nil => exact ⟨hx1, hx2⟩
      | cons y u =>
        obtain ⟨ih1, ih2⟩ := iht fun z hz => hall z (List.mem_cons_of_mem _ hz)
        constructor
        · rw [joinSpace_cons, if_neg (List.cons_ne_nil y u)]
          cases x with
          | nil => exact absurd rfl hx3
          | cons c cs => simpa [noLeadSpace] using hx1
        · rw [joinSpace_cons]
          have hjne : joinSpace (y :: u) ≠ [] := by
            obtain ⟨hy1, hy2, hy3⟩ := hall y (List.mem_cons_of_mem _ (List.mem_cons_self _ _))
            rw [joinSpace_cons]
            by_cases hu : u = []
            · simpa [hu] using hy3
            · simp [hu]
          rw [if_neg (List.cons_ne_nil y u)]
          unfold noTrailSpace
          rw [show ' ' :: joinSpace (y :: u) = [' '] ++ joinSpace (y :: u) from rfl,
            ← List.append_assoc, List.getLast?_append,
            List.getLast?_eq_getLast _ hjne]
          unfold noTrailSpace at ih2
          rw [List.getLast?_eq_getLast _ hjne] at ih2
          exact ih2
  have helems : ∀ x ∈ mergeLoop maxChars snips cur,
      noLeadSpace x = true ∧ noTrailSpace x = true ∧ x ≠ [] := by
    intro x hx
    obtain ⟨⟨s0, _, hx0⟩, hne⟩ := mergeLoop_mem maxChars snips cur x hx
    subst hx0
    exact ⟨noLeadSpace_pyStrip s0, noTrailSpace_pyStrip s0, hne⟩
  obtain ⟨h1, h2⟩ := hclean _ helems
  exact pyStrip_of_clean _ h1 h2

/-- C3: merge never yields a string longer than `max_chars`, and the output
is the space-join of a subsequence of the (stripped) input snippets —
every snippet appearing in the output appears whole. -/
theorem mergeSnippets_bounded_and_whole (snippets : List (List Char)) (maxChars : Nat) :
    (mergeSnippets snippets maxChars).length ≤ maxChars ∧
    ∃ ks, List.Sublist ks (snippets.map pyStrip) ∧
      mergeSnippets snippets maxChars = joinSpace ks := by
  have hout : mergeSnippets snippets maxChars =
      joinSpace (mergeLoop maxChars snippets 0) := by
    unfold mergeSnippets
    exact pyStrip_joinSpace_mergeLoop maxChars snippets 0
  constructor
  · rw [hout]
    by_cases hL : mergeLoop maxChars snippets 0 = []
    · simp [hL, joinSpace]
    · have := mergeLoop_join_length maxChars snippets 0 hL
      omega
  · exact ⟨mergeLoop maxChars snippets 0, mergeLoop_sublist maxChars snippets 0, hout⟩

/-- C4 (counterexample): a first snippet whose length is exactly
`max_chars` is not appended — `_merge_snippets(["abcde"], 5)` is the empty
string, not `"abcde"`. -/
theorem mergeSnippets_exact_budget_dropped :
    ("abcde".data).length = 5 ∧
    mergeSnippets ["abcde".data] 5 = [] ∧
    mergeSnippets ["abcde".data] 5 ≠ "abcde".data := by
  exact ⟨by decide, by decide, by decide⟩

/-- C4 (amended): the greedy accumulation that `_merge_snippets` actually
performs, phrased on the merged text itself — append each non-empty
stripped snippet, separated by a single space, and stop before any
addition whose resulting merged length **plus one reserved separator
character** would exceed `maxChars` (so an addition is made only when the
resulting merged length is at most `maxChars - 1`, and a first snippet of
length exactly `maxChars` is dropped). -/
def specMergeGreedy (maxChars : Nat) : List (List Char) → List Char → List Char
  | [], acc => acc
  | s :: rest, acc =>
    let s' := pyStrip s
    if s' = [] then specMergeGreedy maxChars rest acc
    else
      let candidate := if acc = [] then s' else acc ++ ' ' :: s'
      if maxChars < candidate.length + 1 then acc
      else specMergeGreedy maxChars rest candidate

theorem specMergeGreedy_cons (maxChars : Nat) (s : List Char)
    (rest : List (List Char)) (acc : List Char) :
    specMergeGreedy maxChars (s :: rest) acc =
      if pyStrip s = [] then specMergeGreedy maxChars rest acc
      else if maxChars <
          (if acc = [] then pyStrip s else acc ++ ' ' :: pyStrip s).length + 1 then acc
      else specMergeGreedy maxChars rest
          (if acc = [] then pyStrip s else acc ++ ' ' :: pyStrip s) := rfl

theorem specMergeGreedy_go (maxChars : Nat) :
    ∀ (snips : List (List Char)) (acc : List Char), acc ≠ [] →
      specMergeGreedy maxChars snips acc =
        joinSpace (acc :: mergeLoop maxChars snips (acc.length + 1)) := by
  intro snips
  induction snips with
  | nil =>
    intro acc _
    rfl
  | cons s rest ih =>
    intro acc hacc
    rw [specMergeGreedy_cons, mergeLoop_cons]
    by_cases hs : pyStrip s = []
    · rw [if_pos hs, if_pos hs]
      exact ih acc hacc
    · rw [if_neg hs, if_neg hs, if_neg hacc]
      have hlen : (acc ++ ' ' :: pyStrip s).length =
          acc.length + 1 + (pyStrip s).length := by
        simp only [List.length_append, List.length_cons]
        omega
      by_cases hcond : maxChars < acc.length + 1 + (pyStrip s).length + 1
      · rw [if_pos (by rw [hlen]; omega : maxChars < (acc ++ ' ' :: pyStrip s).length + 1),
          if_pos hcond]
        rfl
      · rw [if_neg (by rw [hlen]; omega :
            ¬ maxChars < (acc ++ ' ' :: pyStrip s).length + 1),
          if_neg hcond]
        have hne : acc ++ ' ' :: pyStrip s ≠ [] := by simp
        rw [ih _ hne, joinSpace_cons_append]
        have hlen2 : (acc ++ ' ' :: pyStrip s).length + 1 =
            acc.length + 1 + (pyStrip s).length + 1 := by rw [hlen]
        rw [hlen2]

theorem specMergeGreedy_from_nil (maxChars : Nat) :
    ∀ snips : List (List Char),
      specMergeGreedy maxChars snips [] = joinSpace (mergeLoop maxChars snips 0) := by
  intro snips
  induction snips with
  | nil => rfl
  | cons s rest ih =>
    rw [specMergeGreedy_cons, mergeLoop_cons]
    by_cases hs : pyStrip s = []
    · rw [if_pos hs, if_pos hs]
      exact ih
    · rw [if_neg hs, if_neg hs, if_pos rfl]
      by_cases hcond : maxChars < (pyStrip s).length + 1
      · rw [if_pos hcond, if_pos (by omega : maxChars < 0 + (pyStrip s).length + 1)]
        rfl
      · rw [if_neg hcond, if_neg (by omega : ¬ maxChars < 0 + (pyStrip s).length + 1)]
        rw [specMergeGreedy_go maxChars rest (pyStrip s) hs]
        have h0 : (0 : Nat) + (pyStrip s).length + 1 = (pyStrip s).length + 1 := by omega
        rw [h0]

/-- C4 (amended, main theorem): `_merge_snippets` equals the greedy
accumulation `specMergeGreedy` that reserves one separator character after
every appended snippet, and a non-empty merged text always has length at
most `maxChars - 1`. -/
theorem mergeSnippets_greedy_amended (snippets : List (List Char)) (maxChars : Nat) :
    mergeSnippets snippets maxChars = specMergeGreedy maxChars snippets [] ∧
    (mergeSnippets snippets maxChars ≠ [] →
      (mergeSnippets snippets maxChars).length + 1 ≤ maxChars) := by
  have hout : mergeSnippets snippets maxChars =
      joinSpace (mergeLoop maxChars snippets 0) := by
    unfold mergeSnippets
    exact pyStrip_joinSpace_mergeLoop maxChars snippets 0
  constructor
  · rw [hout, specMergeGreedy_from_nil]
  · intro hne
    by_cases hL : mergeLoop maxChars snippets 0 = []
    · rw [hout, hL] at hne
      exact absurd rfl hne
    · have := mergeLoop_join_length maxChars snippets 0 hL
      rw [hout]
      omega

/-- Witness for the amended C4 theorem at a concrete input. -/
theorem mergeSnippets_greedy_amended_witness :
    mergeSnippets ["ab".data, "cd".data] 6 ≠ [] ∧
    (mergeSnippets ["ab".data, "cd".data] 6).length + 1 ≤ 6 :=
  ⟨by decide, (mergeSnippets_greedy_amended ["ab".data, "cd".data] 6).2 (by decide)⟩

/-! Topic detection and topic filtering. -/

set_option maxHeartbeats 1000000 in
/-- `_get_topic_keywords` returns one of fifteen fixed keyword lists. -/
theorem getTopicKeywords_cases (query : List Char) :
    getTopicKeywords query ∈
      [(["otite".data] : List (List Char)), ["rhinopharyngite".data],
       ["angine".data], ["fievre".data], ["gastro".data],
       ["bronchiolite".data], ["hypertension".data], ["diabete".data],
       ["migraine".data], ["grippe".data], ["covid".data], ["asthme".data],
       ["allergie".data, "allergies".data], ["cholesterol".data], []] := by
  unfold getTopicKeywords
  by_cases h1 : containsSub (pyLower query) "otite".data = true
  · rw [if_pos h1]
    decide
  · rw [if_neg h1]
    by_cases h2 : containsSub (pyLower query) "rhinopharyng".data = true
    · rw [if_pos h2]
      decide
    · rw [if_neg h2]
      by_cases h3 : containsSub (pyLower query) "angine".data = true
      · rw [if_pos h3]
        decide
      · rw [if_neg h3]
        by_cases h4 : (containsSub (pyLower query) "fièvre".data || containsSub (pyLower query) "fievre".data) = true
        · rw [if_pos h4]
          decide
        · rw [if_neg h4]
          by_cases h5 : containsSub (pyLower query) "gastro".data = true
          · rw [if_pos h5]
            decide
          · rw [if_neg h5]
            by_cases h6 : containsSub (pyLower query) "bronchiolite".data = true
            · rw [if_pos h6]
              decide
            · rw [if_neg h6]
              by_cases h7 : (containsSub (pyLower query) "hypertension".data || containsSub (pyLower query) "tension".data) = true
              · rw [if_pos h7]
                decide
              · rw [if_neg h7]
                by_cases h8 : (containsSub (pyLower query) "diabète".data || containsSub (pyLower query) "diabete".data) = true
                · rw [if_pos h8]
                  decide
                · rw [if_neg h8]
                  by_cases h9 : containsSub (pyLower query) "migraine".data = true
                  · rw [if_pos h9]
                    decide
                  · rw [if_neg h9]
                    by_cases h10 : containsSub (pyLower query) "grippe".data = true
                    · rw [if_pos h10]
                      decide
                    · rw [if_neg h10]
                      by_cases h11 : containsSub (pyLower query) "covid".data = true
                      · rw [if_pos h11]
                        decide
                      · rw [if_neg h11]
                        by_cases h12 : containsSub (pyLower query) "asthme".data = true
                        · rw [if_pos h12]
                          decide
                        · rw [if_neg h12]
                          by_cases h13 : containsSub (pyLower query) "allerg".data = true
                          · rw [if_pos h13]
                            decide
                          · rw [if_neg h13]
                            by_cases h14 : (containsSub (pyLower query) "cholestérol".data || containsSub (pyLower query) "cholesterol".data) = true
                            · rw [if_pos h14]
                              decide
                            · rw [if_neg h14]
                              decide

set_option maxHeartbeats 1000000 in
/-- The keyword lists returned by `_get_topic_keywords` are already
lower-case, so lowering them is a no-op. -/
theorem getTopicKeywords_lower_fixed (query : List Char) :
    ∀ kw ∈ getTopicKeywords query, pyLower kw = kw := by
  have hcases := getTopicKeywords_cases query
  simp only [List.mem_cons, List.not_mem_nil, or_false] at hcases
  rcases hcases with h|h|h|h|h|h|h|h|h|h|h|h|h|h|h <;> rw [h] <;> intro kw hkw <;>
    simp only [List.mem_cons, List.not_mem_nil, or_false] at hkw
  all_goals first
    | (rcases hkw with rfl | rfl <;> decide)
    | (rcases hkw with rfl; decide)

/-- The ordered trigger/tag rule table that the if-chain of
`_get_topic_keywords` realizes, highest priority first. -/
def topicRules : List (List (List Char) × List (List Char)) :=
  [(["otite".data], ["otite".data]),
   (["rhinopharyng".data], ["rhinopharyngite".data]),
   (["angine".data], ["angine".data]),
   (["fièvre".data, "fievre".data], ["fievre".data]),
   (["gastro".data], ["gastro".data]),
   (["bronchiolite".data], ["bronchiolite".data]),
   (["hypertension".data, "tension".data], ["hypertension".data]),
   (["diabète".data, "diabete".data], ["diabete".data]),
   (["migraine".data], ["migraine".data]),
   (["grippe".data], ["grippe".data]),
   (["covid".data], ["covid".data]),
   (["asthme".data], ["asthme".data]),
   (["allerg".data], ["allergie".data, "allergies".data]),
   (["cholestérol".data, "cholesterol".data], ["cholesterol".data])]

/-- A rule fires when one of its trigger substrings occurs in the
lower-cased query. -/
def ruleMatches (q : List Char) (rule : List (List Char) × List (List Char)) : Bool :=
  rule.1.any fun trig => containsSub q trig

/-- The tags of the first matching rule of an ordered rule list, or `[]`
when no rule matches — the reference semantics the claim describes. -/
def firstMatchingTags (q : List Char) :
    List (List (List Char) × List (List Char)) → List (List Char)
  | [] => []
  | rule :: rest => if ruleMatches q rule then rule.2 else firstMatchingTags q rest

theorem firstMatchingTags_all_false (q : List Char) :
    ∀ rules, (∀ r ∈ rules, ruleMatches q r = false) →
      firstMatchingTags q rules = [] := by
  intro rules
  induction rules with
  | nil => intro _; rfl
  | cons rule rest ih =>
    intro hall
    have h0 := hall rule (List.mem_cons_self _ _)
    simp only [firstMatchingTags, h0, Bool.false_eq_true, if_false]
    exact ih fun r hr => hall r (List.mem_cons_of_mem _ hr)

/-- C7: `_get_topic_keywords` implements first-match evaluation of the
priority-ordered rule table `topicRules` on the lower-cased query: the
first matching rule's tags are returned, rules are never combined, no
match yields the empty list, and any query containing "otite" yields
exactly `["otite"]` regardless of later rules. -/
theorem detect_topics_first_rule (query : List Char) :
    getTopicKeywords query = firstMatchingTags (pyLower query) topicRules ∧
    ((∀ rule ∈ topicRules, ruleMatches (pyLower query) rule = false) →
      getTopicKeywords query = []) ∧
    (containsSub (pyLower query) "otite".data = true →
      getTopicKeywords query = ["otite".data]) := by
  have h1 : getTopicKeywords query = firstMatchingTags (pyLower query) topicRules := by
    simp only [getTopicKeywords, topicRules, firstMatchingTags, ruleMatches,
      List.any_cons, List.any_nil, Bool.or_false]
  refine ⟨h1, ?_, ?_⟩
  · intro hall
    rw [h1]
    exact firstMatchingTags_all_false _ _ hall
  · intro hot
    unfold getTopicKeywords
    rw [if_pos hot]

/-- Witness for C7 at a concrete query naming two conditions. -/
theorem detect_topics_first_rule_witness :
    getTopicKeywords "Otite ou diabète ?".data = ["otite".data] :=
  (detect_topics_first_rule "Otite ou diabète ?".data).2.2 (by decide)

/-- Unfolding equation of `_filter_results_by_topic`. -/
theorem filterResultsByTopic_eq (results : List QueryResult) (query : List Char) :
    filterResultsByTopic results query =
      if getTopicKeywords query = [] then results
      else if (results.filter fun r =>
          (getTopicKeywords query).any fun kw =>
            containsSub (pyLower r.filename) kw) = []
        then results
        else results.filter fun r =>
          (getTopicKeywords query).any fun kw =>
            containsSub (pyLower r.filename) kw := rfl

/-- C2: for a non-empty result list, `_filter_results_by_topic` never
returns an empty list; with no detected topic it returns the results
unchanged, and with a detected topic it keeps (in order) exactly the
results whose filename case-insensitively contains some detected keyword,
falling back to the original results when that filter keeps nothing. -/
theorem filter_by_topic_nonempty_spec (results : List QueryResult)
    (query : List Char) (hres : results ≠ []) :
    filterResultsByTopic results query ≠ [] ∧
    (getTopicKeywords query = [] → filterResultsByTopic results query = results) ∧
    (getTopicKeywords query ≠ [] →
      filterResultsByTopic results query =
        (if (results.filter fun r =>
              (getTopicKeywords query).any fun kw =>
                containsSub (pyLower r.filename) (pyLower kw)) = []
         then results
         else results.filter fun r =>
           (getTopicKeywords query).any fun kw =>
             containsSub (pyLower r.filename) (pyLower kw))) := by
  have hfilter : (results.filter fun r =>
        (getTopicKeywords query).any fun kw =>
          containsSub (pyLower r.filename) kw) =
      results.filter fun r =>
        (getTopicKeywords query).any fun kw =>
          containsSub (pyLower r.filename) (pyLower kw) := by
    refine List.filter_congr ?_
    intro r _
    have hany : ∀ kws : List (List Char), (∀ kw ∈ kws, pyLower kw = kw) →
        (kws.any fun kw => containsSub (pyLower r.filename) kw) =
        (kws.any fun kw => containsSub (pyLower r.filename) (pyLower kw)) := by
      intro kws hk
      induction kws with
      | nil => rfl
      | cons k t iht =>
        have hk0 : pyLower k = k := hk k (List.mem_cons_self _ _)
        have ht := iht fun kw hkw => hk kw (List.mem_cons_of_mem _ hkw)
        simp [List.any_cons, hk0, ht]
    exact hany _ (getTopicKeywords_lower_fixed query)
  refine ⟨?_, ?_, ?_⟩
  · rw [filterResultsByTopic_eq]
    by_cases h1 : getTopicKeywords query = []
    · rw [if_pos h1]
      exact hres
    · rw [if_neg h1]
      by_cases h2 : (results.filter fun r =>
          (getTopicKeywords query).any fun kw =>
            containsSub (pyLower r.filename) kw) = []
      · rw [if_pos h2]
        exact hres
      · rw [if_neg h2]
        exact h2
  · intro h
    rw [filterResultsByTopic_eq, if_pos h]
  · intro h
    rw [filterResultsByTopic_eq, if_neg h, hfilter]

/-- Witness for C2 at a concrete non-empty result list. -/
theorem filter_by_topic_nonempty_witness :
    filterResultsByTopic
      [{ filename := "diabete_info.pdf".data, score := 1, chunkIndex := 0,
         text := "Texte".data }]
      "Mon enfant a une otite, que faire ?".data ≠ [] :=
  (filter_by_topic_nonempty_spec _ _ (by decide)).1

/-! `_summarize_snippet`. -/

theorem filterSentences_cons (s : List Char) (rest : List (List Char)) :
    filterSentences (s :: rest) =
      if (pyStrip s).length < 30 then filterSentences rest
      else if UNWANTED_PATTERNS.any
          (fun p => containsSub (pyLower (pyStrip s)) (pyLower p)) then
        filterSentences rest
      else if BIBLIO_PATTERNS.any
          (fun p => containsSub (pyLower (pyStrip s)) p) then
        filterSentences rest
      else if MONTHS.any (fun m => pyStartsWith (pyLower (pyStrip s)) m) then
        filterSentences rest
      else pyStrip s :: filterSentences rest := rfl

/-- Every surviving sentence is the strip of an input sentence and has at
least 30 characters. -/
theorem filterSentences_mem :
    ∀ (l : List (List Char)) (x : List Char), x ∈ filterSentences l →
      (∃ s, x = pyStrip s) ∧ 30 ≤ x.length := by
  intro l
  induction l with
  | nil => intro x hx; simp [filterSentences] at hx
  | cons s rest ih =>
    intro x hx
    rw [filterSentences_cons] at hx
    by_cases h1 : (pyStrip s).length < 30
    · rw [if_pos h1] at hx
      exact ih x hx
    · rw [if_neg h1] at hx
      by_cases h2 : UNWANTED_PATTERNS.any
          (fun p => containsSub (pyLower (pyStrip s)) (pyLower p)) = true
      · rw [if_pos h2] at hx
        exact ih x hx
      · rw [if_neg h2] at hx
        by_cases h3 : BIBLIO_PATTERNS.any
            (fun p => containsSub (pyLower (pyStrip s)) p) = true
        · rw [if_pos h3] at hx
          exact ih x hx
        · rw [if_neg h3] at hx
          by_cases h4 : MONTHS.any (fun m => pyStartsWith (pyLower (pyStrip s)) m) = true
          · rw [if_pos h4] at hx
            exact ih x hx
          · rw [if_neg h4] at hx
            rcases List.mem_cons.mp hx with hx | hx
            · subst hx
              exact ⟨⟨s, rfl⟩, by omega⟩
            · exact ih x hx

theorem joinDotSpace_cons (x : List Char) (L : List (List Char)) :
    joinDotSpace (x :: L) =
      if L = [] then x else x ++ '.' :: ' ' :: joinDotSpace L := by
  cases L with
  | nil => rfl
  | cons y t => rfl

/-- Joining stripped non-empty sentences with `". "` yields a string that
`strip()` leaves unchanged. -/
theorem pyStrip_joinDotSpace_of_clean :
    ∀ L : List (List Char),
      (∀ x ∈ L, noLeadSpace x = true ∧ noTrailSpace x = true ∧ x ≠ []) →
      pyStrip (joinDotSpace L) = joinDotSpace L := by
  have hclean : ∀ L : List (List Char),
      (∀ x ∈ L, noLeadSpace x = true ∧ noTrailSpace x = true ∧ x ≠ []) →
      noLeadSpace (joinDotSpace L) = true ∧ noTrailSpace (joinDotSpace L) = true := by
    intro L
    induction L with
    | nil => intro _; exact ⟨rfl, rfl⟩
    | cons x t iht =>
      intro hall
      obtain ⟨hx1, hx2, hx3⟩ := hall x (List.mem_cons_self _ _)
      cases t with
      | nil => exact ⟨hx1, hx2⟩
      | cons y u =>
        obtain ⟨ih1, ih2⟩ := iht fun z hz => hall z (List.mem_cons_of_mem _ hz)
        have hjne : joinDotSpace (y :: u) ≠ [] := by
          obtain ⟨hy1, hy2, hy3⟩ := hall y (List.mem_cons_of_mem _ (List.mem_cons_self _ _))
          rw [joinDotSpace_cons]
          by_cases hu : u = []
          · simpa [hu] using hy3
          · simp [hu]
        constructor
        · rw [joinDotSpace_cons, if_neg (List.cons_ne_nil y u)]
          cases x with
          | nil => exact absurd rfl hx3
          | cons c cs => simpa [noLeadSpace] using hx1
        · rw [joinDotSpace_cons, if_neg (List.cons_ne_nil y u)]
          unfold noTrailSpace
          rw [show '.' :: ' ' :: joinDotSpace (y :: u) =
                ['.', ' '] ++ joinDotSpace (y :: u) from rfl,
            ← List.append_assoc, List.getLast?_append,
            List.getLast?_eq_getLast _ hjne]
          unfold noTrailSpace at ih2
          rw [List.getLast?_eq_getLast _ hjne] at ih2
          exact ih2
  intro L hall
  obtain ⟨h1, h2⟩ := hclean L hall
  exact pyStrip_of_clean _ h1 h2

theorem summarizeSnippet_eq (text : List Char) (n : Nat) :
    summarizeSnippet text n =
      if filterSentences (splitSentences text) = [] then []
      else if endsWithDot (pyStrip (joinDotSpace
          ((filterSentences (splitSentences text)).take n))) then
        pyStrip (joinDotSpace ((filterSentences (splitSentences text)).take n))
      else
        pyStrip (joinDotSpace ((filterSentences (splitSentences text)).take n))
          ++ ['.'] := rfl

/-- The claim's reading of `_summarize_snippet`: the spec-side function
joins the first `maxSentences` surviving sentences with `". "` and appends
a trailing period if absent, returning the empty string when no sentence
survives (no intermediate `strip()`). -/
def addDotIfMissing (s : List Char) : List Char :=
  if endsWithDot s then s else s ++ ['.']

/-- Spec-side formulation of `_summarize_snippet` for the refinement
theorem: split, filter, take, join with `". "`, append a period if
missing; empty when no sentence survives. -/
def specSummarize (text : List Char) (maxSentences : Nat) : List Char :=
  if filterSentences (splitSentences text) = [] then []
  else addDotIfMissing (joinDotSpace
    ((filterSentences (splitSentences text)).take maxSentences))

/-- C8: `_summarize_snippet` behaves exactly as the spec describes —
split then filter, take the first `max_sentences` survivors, join with
`". "`, append a trailing period when absent, and return the empty string
when no sentence survives; in particular `summarize("", n)` and
`summarize("   ", n)` are empty for every `n`. -/
theorem summarize_spec (text : List Char) (n : Nat) :
    summarizeSnippet text n = specSummarize text n ∧
    summarizeSnippet [] n = [] ∧
    summarizeSnippet "   ".data n = [] := by
  refine ⟨?_, rfl, rfl⟩
  rw [summarizeSnippet_eq]
  unfold specSummarize
  by_cases h0 : filterSentences (splitSentences text) = []
  · rw [if_pos h0, if_pos h0]
  · rw [if_neg h0, if_neg h0]
    have hstrip : pyStrip (joinDotSpace
        ((filterSentences (splitSentences text)).take n)) =
        joinDotSpace ((filterSentences (splitSentences text)).take n) := by
      apply pyStrip_joinDotSpace_of_clean
      intro x hx
      have hx' : x ∈ filterSentences (splitSentences text) :=
        List.take_subset n _ hx
      obtain ⟨⟨s, hxs⟩, hlen⟩ := filterSentences_mem _ x hx'
      subst hxs
      refine ⟨noLeadSpace_pyStrip s, noTrailSpace_pyStrip s, ?_⟩
      intro hnil
      rw [hnil] at hlen
      simp at hlen
    rw [hstrip]
    unfold addDotIfMissing
    rfl

/-! `answer_question_extractive` and `os.path.basename`. -/

theorem basename_aux_no_slash :
    ∀ (s acc : List Char), '/' ∉ acc →
      '/' ∉ s.foldl (fun acc c => if c = '/' then [] else acc ++ [c]) acc := by
  intro s
  induction s with
  | nil => intro acc h; simpa using h
  | cons c t ih =>
    intro acc h
    simp only [List.foldl_cons]
    by_cases hc : c = '/'
    · rw [if_pos hc]
      exact ih _ (by simp)
    · rw [if_neg hc]
      refine ih _ ?_
      intro hmem
      rcases List.mem_append.mp hmem with hm | hm
      · exact h hm
      · rw [List.mem_singleton] at hm
        exact hc hm.symm

theorem basename_no_slash (s : List Char) : '/' ∉ basename s :=
  basename_aux_no_slash s [] (by simp)

theorem basename_aux_of_no_slash :
    ∀ (s acc : List Char), '/' ∉ s →
      s.foldl (fun acc c => if c = '/' then [] else acc ++ [c]) acc = acc ++ s := by
  intro s
  induction s with
  | nil => intro acc _; simp
  | cons c t ih =>
    intro acc h
    have hc : c ≠ '/' := by
      intro he
      exact h (he ▸ List.mem_cons_self c t)
    simp only [List.foldl_cons]
    rw [if_neg hc, ih _ (fun hm => h (List.mem_cons_of_mem _ hm))]
    simp

theorem basename_of_no_slash (s : List Char) (h : '/' ∉ s) : basename s = s := by
  unfold basename
  rw [basename_aux_of_no_slash s [] h]
  simp

theorem basename_idem (s : List Char) : basename (basename s) = basename s :=
  basename_of_no_slash _ (basename_no_slash s)

/-- The sources list built by `answer_question_extractive` when retrieval
returned something: one `Source` per topic-filtered result, in order. -/
theorem answerQuestionExtractive_sources (query : List Char)
    (results : List QueryResult) (maxChunkChars : Nat) (hres : results ≠ []) :
    (answerQuestionExtractive query results maxChunkChars).sources =
      (filterResultsByTopic results query).map fun r =>
        { filename := basename r.filename, score := r.score,
          chunkIndex := r.chunkIndex,
          snippet := snippetOfResult maxChunkChars r : Source } := by
  unfold answerQuestionExtractive
  rw [if_neg hres]

/-- C9: in the composer, each retained result's Source snippet is the
summarization of the truncated chunk text when that is non-empty, and the
cleaned (unfiltered) truncated text otherwise; consequently a Source
snippet is empty only when cleaning the truncated chunk text itself is
empty. -/
theorem answer_sources_snippet_fallback (query : List Char)
    (results : List QueryResult) (maxChunkChars : Nat) (hres : results ≠ [])
    (i : Nat) (hi : i < (filterResultsByTopic results query).length)
    (hj : i < (answerQuestionExtractive query results maxChunkChars).sources.length) :
    ((answerQuestionExtractive query results maxChunkChars).sources.get ⟨i, hj⟩).snippet =
      (if summarizeSnippet
          (((filterResultsByTopic results query).get ⟨i, hi⟩).text.take maxChunkChars) 3 = []
       then cleanText
          (((filterResultsByTopic results query).get ⟨i, hi⟩).text.take maxChunkChars)
       else summarizeSnippet
          (((filterResultsByTopic results query).get ⟨i, hi⟩).text.take maxChunkChars) 3) ∧
    (((answerQuestionExtractive query results maxChunkChars).sources.get ⟨i, hj⟩).snippet = [] →
      cleanText
        (((filterResultsByTopic results query).get ⟨i, hi⟩).text.take maxChunkChars) = []) := by
  have hsrc := answerQuestionExtractive_sources query results maxChunkChars hres
  constructor
  · simp only [hsrc, List.get_eq_getElem, List.getElem_map]
    rfl
  · intro hempty
    simp only [hsrc, List.get_eq_getElem, List.getElem_map] at hempty
    unfold snippetOfResult at hempty
    by_cases hsum : summarizeSnippet
        ((filterResultsByTopic results query)[i].text.take maxChunkChars) 3 = []
    · rw [if_pos hsum] at hempty
      simpa [List.get_eq_getElem] using hempty
    · rw [if_neg hsum] at hempty
      exact absurd hempty hsum

/-- Witness for C9: a chunk made only of sentences shorter than 30
characters gets the cleaned raw text as its snippet, not an empty one. -/
theorem answer_sources_snippet_fallback_witness :
    ((answerQuestionExtractive "otite".data
        [{ filename := "otite_conduite.pdf".data, score := 1, chunkIndex := 0,
           text := "Oui. Non. Ok.".data }] 600).sources.get
        ⟨0, by decide⟩).snippet =
      cleanText (("Oui. Non. Ok.".data).take 600) ∧
    cleanText (("Oui. Non. Ok.".data).take 600) ≠ [] := by
  have h := answer_sources_snippet_fallback "otite".data
      [{ filename := "otite_conduite.pdf".data, score := 1, chunkIndex := 0,
         text := "Oui. Non. Ok.".data }] 600 (by decide) 0 (by decide) (by decide)
  refine ⟨?_, by decide⟩
  have h1 := h.1
  rw [if_pos (by decide)] at h1
  exact h1

/-- C6: `_clean_text` is idempotent. -/
theorem cleanText_idempotent (s : List Char) :
    cleanText (cleanText s) = cleanText s := by
  have hy := cleanText_eq_classify s
  have hfix : ∀ c ∈ cleanText s, cleanChar c = c := by
    intro c hc
    rw [hy] at hc
    have hc1 : c ∈ collapseSpaces (s.map cleanChar) := (pyStrip_sublist _).subset hc
    have hc2 : c ∈ s.map cleanChar := collapseSpaces_subset _ hc1
    obtain ⟨d, _, hd⟩ := List.mem_map.mp hc2
    rw [← hd]
    exact cleanChar_idem d
  have hmap : (cleanText s).map cleanChar = cleanText s := by
    have := List.map_congr_left (l := cleanText s) (f := cleanChar) (g := id)
      (fun a ha => hfix a ha)
    simpa using this
  have hds : hasDoubleSpace (cleanText s) = false := by
    rw [hy]
    exact hasDoubleSpace_pyStrip _ (hasDoubleSpace_collapseSpaces _)
  rw [cleanText_eq_classify (cleanText s), hmap, collapseSpaces_of_no_double _ hds, hy]
  exact pyStrip_idem _

end RagPipeline

namespace VectorStore

/-- C1 (code evaluated at the failing input): `load_vector_store` accepts
an index whose vector file has 2 rows while the metadata file has 1
record — no consistency check is performed, the load succeeds. -/
theorem load_vector_store_accepts_mismatch :
    load_vector_store (some [[(1 : ℚ)], [(2 : ℚ)]])
        (some [{ filename := "otite.pdf".data, chunkIndex := 0,
                 text := "t".data }]) =
      some ([[(1 : ℚ)], [(2 : ℚ)]],
        [{ filename := "otite.pdf".data, chunkIndex := 0, text := "t".data }]) ∧
    ([[(1 : ℚ)], [(2 : ℚ)]] : List (List ℚ)).length ≠
      ([{ filename := "otite.pdf".data, chunkIndex := 0, text := "t".data }] :
        List MetaRecord).length :=
  ⟨rfl, by decide⟩

/-- C10: after the offline build's filename-cleaning pass, no metadata
record's filename contains a `/`, and the serving side's
`os.path.basename` is a no-op on it. -/
theorem cleanFilenames_basename_invariant (metadata : List MetaRecord) :
    ∀ m ∈ cleanFilenames metadata,
      '/' ∉ m.filename ∧ RagPipeline.basename m.filename = m.filename := by
  intro m hm
  unfold cleanFilenames at hm
  obtain ⟨m0, hm0, hmap⟩ := List.mem_map.mp hm
  by_cases hf : m0.filename ≠ []
  · rw [if_pos hf] at hmap
    rw [← hmap]
    exact ⟨RagPipeline.basename_no_slash _, RagPipeline.basename_idem _⟩
  · rw [if_neg hf] at hmap
    have hf' : m0.filename = [] := not_not.mp hf
    rw [← hmap, hf']
    exact ⟨by simp, rfl⟩

/-- Witness for C10 at a concrete metadata list holding a path with
directory components. -/
theorem cleanFilenames_basename_invariant_witness :
    '/' ∉ ("otite.pdf".data : List Char) ∧
    RagPipeline.basename ("otite.pdf".data : List Char) = "otite.pdf".data :=
  cleanFilenames_basename_invariant
    [{ filename := "data/brochures/otite.pdf".data, chunkIndex := 0,
       text := "x".data }]
    { filename := "otite.pdf".data, chunkIndex := 0, text := "x".data }
    (by decide)

end VectorStore
